/-
Verification of the MultiProcess teaching kernel core (frame pool, VM pool,
page table, scheduler queue) against its natural-language specification.

The C++ sources are shallowly embedded: machine unsigned longs are modelled
as Nat with explicit reduction modulo 2^32 where the code can wrap, byte
stores are functions Nat → Nat whose written values are always < 256 (the
C code stores through unsigned char, which truncates to 8 bits), and
pointer-linked structures (the scheduler ready queue) are modelled by a
next-pointer heap together with head and tail fields.
-/
import Mathlib

set_option maxRecDepth 100000

namespace MultiProcess

/-! ## Machine arithmetic (32-bit unsigned long) -/

/-- The modulus of the 32-bit unsigned long type used throughout the kernel. -/
def U32 : Nat := 2 ^ 32

/-- Addition of unsigned longs, wrapping modulo 2^32. -/
def uadd (a b : Nat) : Nat := (a + b) % U32

/-- Subtraction of unsigned longs, wrapping modulo 2^32. -/
def usub (a b : Nat) : Nat := (a + (U32 - b % U32)) % U32

/-! ## ContFramePool (cont_frame_pool.C)

The pool state: base frame number, frame count, free-frame counter and the
two-bits-per-frame bitmap. The bitmap is a byte store indexed by byte slot;
frame state f occupies bits 2*(f mod 4) and 2*(f mod 4)+1 of byte f/4,
exactly as computed by the shift arithmetic in the source. -/

inductive FrameState where
  | Free
  | Used
  | HoS
deriving DecidableEq, Repr

structure CFP where
  base : Nat
  nframes : Nat
  nFree : Nat
  bitmap : Nat → Nat

/-- ContFramePool::get_state. BYTE_SHIFT = 3, BYTE - 1 = 7 as in the source. -/
def get_state (c : CFP) (f : Nat) : FrameState :=
  let fn := f * 2
  let slot := fn >>> 3
  let m1 : Nat := 1 <<< (fn &&& 7)
  let m2 : Nat := m1 <<< 1
  if c.bitmap slot &&& m1 = 0 then .Free
  else if c.bitmap slot &&& m2 ≠ 0 then .HoS
  else .Used

/-- ContFramePool::set_state. The source clears with
bitmap[slot] &= ~(0b11 << shift) through an unsigned char, i.e. it keeps
only the low byte, which is the conjunction with 255 ^^^ (3 <<< shift). -/
def set_state (c : CFP) (f : Nat) (s : FrameState) : CFP :=
  let fn := f * 2
  let slot := fn >>> 3
  let sh := fn &&& 7
  let cleared := c.bitmap slot &&& (255 ^^^ (3 <<< sh))
  let v : Nat :=
    match s with
    | .Free => cleared
    | .Used => cleared ||| (1 <<< sh)
    | .HoS => cleared ||| (3 <<< sh)
  { c with bitmap := fun i => if i = slot then v else c.bitmap i }

/-- The for-loop in the constructor and in get_frames that sets the states of
k consecutive frames starting at fno. -/
def setRange (c : CFP) (s : FrameState) (fno : Nat) : Nat → CFP
  | 0 => c
  | k + 1 => setRange (set_state c fno s) s (fno + 1) k

/-- The scanning loop of ContFramePool::get_frames. Arguments are the
remaining iteration count, the current frame number, the running count of
consecutive free frames, and the start variable (initialised to 0 by the
source and only assigned on break). It returns the final values of
(start, free). -/
def scanAux (c : CFP) (n : Nat) : Nat → Nat → Nat → Nat → Nat × Nat
  | 0, _, free, start => (start, free)
  | rem + 1, fno, free, start =>
    let free' := if get_state c fno = .Free then free + 1 else 0
    if free' = n then (fno + 1 - n, free')
    else scanAux c n rem (fno + 1) free' start

/-- ContFramePool::get_frames. Returns the value returned by the source
(0 on failure, start + base_frame_no on success) and the updated pool. -/
def get_frames (c : CFP) (n : Nat) : Nat × CFP :=
  if n > c.nFree then (0, c)
  else
    let sf := scanAux c n c.nframes 0 0 0
    if sf.2 ≠ n then (0, c)
    else
      let start := sf.1
      let c1 := set_state (setRange c .Used start n) start .HoS
      (uadd start c.base, { c1 with nFree := c1.nFree - n })

/-- The loop of ContFramePool::mark_inaccessible: for fno in
[b, b+n) it sets state at index fno - base_frame_no (unsigned subtraction)
to Used. The iteration count is n, the no-wrap reading of fno < b + n. -/
def miRange (c : CFP) (fno : Nat) : Nat → CFP
  | 0 => c
  | k + 1 => miRange (set_state c (usub fno c.base) .Used) (fno + 1) k

/-- ContFramePool::mark_inaccessible. After the loop the source executes
set_state(_base_frame_no, FrameState::HoS) with the unadjusted argument.
nFreeFrames is not modified anywhere in this function. -/
def mark_inaccessible (c : CFP) (b n : Nat) : CFP :=
  set_state (miRange c b n) b .HoS

/-- The do-while loop of ContFramePool::_release_frames: set the current
frame Free, increment nFreeFrames and fno, and continue while
get_state(fno) == Used && fno < nframes. The second component collects the
frame indices consulted by get_state in the loop condition (the state check
is evaluated before the bounds check, as in the source). -/
def relLoop (fuel : Nat) (c : CFP) (fno : Nat) : CFP × List Nat :=
  match fuel with
  | 0 => (c, [])
  | fuel + 1 =>
    let c' := { set_state c fno .Free with nFree := c.nFree + 1 }
    if get_state c' (fno + 1) = .Used ∧ fno + 1 < c'.nframes then
      let r := relLoop fuel c' (fno + 1)
      (r.1, (fno + 1) :: r.2)
    else (c', [fno + 1])

/-- ContFramePool::_release_frames (pool-relative index). On a non-HoS first
frame the source logs and returns. The loop body runs while
fno + 1 < nframes after the first iteration, so it executes at most
nframes + 1 times; with that fuel the fuel never runs out and the fuel
recursion is exactly the do-while loop of the source. -/
def releaseFramesIn (c : CFP) (first : Nat) : CFP × List Nat :=
  if get_state c first ≠ .HoS then (c, [])
  else relLoop (c.nframes + 1) c first

/-- ContFramePool::release_frames (static): walk the pool registry, find the
pool with usub f base < nframes, and release there. -/
def release_frames : List CFP → Nat → List CFP
  | [], _ => []
  | c :: rest, f =>
    if usub f c.base < c.nframes then (releaseFramesIn c (usub f c.base)).1 :: rest
    else c :: release_frames rest f

/-- Modelled from the spec: INFO_FRAME_CAPACITY is defined in the missing
header cont_frame_pool.H; spec section 4.1 fixes it as PAGE_SIZE * 4 (each
byte of the bitmap holds 4 two-bit states, so one 4096-byte info frame
covers 4096 * 4 frames). -/
def INFO_FRAME_CAPACITY : Nat := 4096 * 4

/-- ContFramePool::needed_info_frames. -/
def needed_info_frames (n : Nat) : Nat :=
  n / INFO_FRAME_CAPACITY + (if n % INFO_FRAME_CAPACITY > 0 then 1 else 0)

/-- The ContFramePool constructor. The initial content of the info frame is
arbitrary memory, passed as init; bytes of real memory are < 256, hence the
reduction modulo 256. The source then marks all n frames Free and, when
info_frame_no == 0, marks the first needed_info_frames(n) frames Used,
subtracts them from nFreeFrames and marks frame 0 HoS. -/
def mkPool (base n info : Nat) (init : Nat → Nat) : CFP :=
  let c0 : CFP := { base := base, nframes := n, nFree := n, bitmap := fun i => init i % 256 }
  let c1 := setRange c0 .Free 0 n
  if info = 0 then
    let k := needed_info_frames n
    let c2 := setRange c1 .Used 0 k
    let c3 := { c2 with nFree := usub c2.nFree k }
    set_state c3 0 .HoS
  else c1

/-- The number of frames of the pool whose state is Free. -/
def countFree (c : CFP) : Nat :=
  ((List.range c.nframes).filter fun f => get_state c f = .Free).length

/-- The CFP invariants of spec section 3: machine-representable bounds,
nFreeFrames counts the Free frames, and every Used frame is part of a
contiguous allocation headed by a HoS frame. -/
def CFPInv (c : CFP) : Prop :=
  c.base < U32 ∧ c.nframes < U32 ∧ c.nFree = countFree c ∧
  ∀ f, f < c.nframes → get_state c f = .Used →
    ∃ h, h ≤ f ∧ (get_state c h = .HoS ∧ ∀ g, g ≤ f → h < g → get_state c g = .Used)

instance (c : CFP) : Decidable (CFPInv c) := by
  unfold CFPInv
  infer_instance

/-! ## VMPool (vm_pool.C)

The two fixed-capacity Region arrays live in the pool's two management
pages; the model keeps them as functions from slot index to Region, with
slot indices 0 .. MAX_REGIONS - 1 scanned by the loops. -/

/-- Machine::PAGE_SIZE, 4096 bytes (spec section 6; machine.H is external). -/
def PAGE_SIZE : Nat := 4096

/-- Modelled from the spec: MAX_REGIONS is defined in the missing header
vm_pool.H. Each Region array occupies one 4096-byte management page and a
Region holds two unsigned longs (8 bytes), so a page holds 512 entries. -/
def MAX_REGIONS : Nat := 512

structure Region where
  base_address : Nat
  size : Nat
deriving DecidableEq, Repr

structure VMP where
  base_address : Nat
  size : Nat
  alloc : Nat → Region
  free : Nat → Region

/-- The VMPool constructor: zero the two management pages (every Region slot
becomes {0,0}), then seed alloc[0] with the two management pages themselves
and free[0] with the rest of the window. -/
def mkVMPool (base size : Nat) : VMP :=
  { base_address := base, size := size,
    alloc := fun i => if i = 0 then ⟨base, PAGE_SIZE * 2⟩ else ⟨0, 0⟩,
    free := fun i =>
      if i = 0 then ⟨uadd base (PAGE_SIZE * 2), usub size (2 * PAGE_SIZE)⟩ else ⟨0, 0⟩ }

/-- The INVALID_SIZE test of VMPool::allocate:
_size == 0 || _size > (size - (2 * Machine::PAGE_SIZE)). -/
def invalidSize (p : VMP) (s : Nat) : Prop :=
  s = 0 ∨ s > usub p.size (2 * PAGE_SIZE)

instance (p : VMP) (s : Nat) : Decidable (invalidSize p s) := by
  unfold invalidSize; infer_instance

/-- The page-rounding computation of VMPool::allocate:
((_size + PAGE_SIZE - 1) / PAGE_SIZE) * PAGE_SIZE in unsigned arithmetic. -/
def adjSize (s : Nat) : Nat := (s + PAGE_SIZE - 1) % U32 / PAGE_SIZE * PAGE_SIZE

/-- VMPool::allocate. Returns the returned address (0 on any error) and the
updated pool. The two scans are first-fit over slot indices, as in the
source. No page tables are touched. -/
def allocate (p : VMP) (s : Nat) : Nat × VMP :=
  if invalidSize p s then (0, p)
  else
    let adj := adjSize s
    match (List.range MAX_REGIONS).find? (fun i => decide ((p.free i).size ≥ adj)) with
    | none => (0, p)
    | some idx =>
      let newAddr := (p.free idx).base_address
      match (List.range MAX_REGIONS).find? (fun i => decide ((p.alloc i).size = 0)) with
      | none => (0, p)
      | some i =>
        (newAddr,
          { p with
            alloc := fun j => if j = i then ⟨newAddr, adj⟩ else p.alloc j,
            free := fun j =>
              if j = idx then
                ⟨uadd (p.free idx).base_address adj, (p.free idx).size - adj⟩
              else p.free j })

/-- VMPool::release, restricted to its effect on the region arrays (the
per-page free_page calls mutate the page table, not the arrays). -/
def release (p : VMP) (addr : Nat) : VMP :=
  if addr < p.base_address ∨ addr ≥ uadd p.base_address p.size then p
  else
    match (List.range MAX_REGIONS).find?
        (fun i => decide (addr = (p.alloc i).base_address ∧ (p.alloc i).size > 0)) with
    | none => p
    | some idx =>
      let rsize := (p.alloc idx).size
      match (List.range MAX_REGIONS).find? (fun i => decide ((p.free i).size = 0)) with
      | none => p
      | some i =>
        { p with
          free := fun j => if j = i then ⟨addr, rsize⟩ else p.free j,
          alloc := fun j => if j = idx then ⟨(p.alloc idx).base_address, 0⟩ else p.alloc j }

/-! ## PageTable::free_page (page_table.C)

The page-table entries reachable through the recursive mapping window are
modelled as a word store from virtual address to 32-bit entry. free_page
releases the PTE's frame to the process frame pool (recorded in released)
and flushes the TLB through load(), which rewrites cr3 (recorded in
cr3written). -/

/-- Modelled from the spec: KERNEL_MEM_LIMIT is defined in the missing
header page_table.H; spec sections 3 and 6 place the recursive window at
0x3FC0_0000 = KERNEL_MEM_LIMIT - 4 MiB with a 1 GiB kernel limit. -/
def KERNEL_MEM_LIMIT : Nat := 0x40000000

/-- PageTable::PTE_address: recursively access, take the top 20 bits and
clear the bottom 2. -/
def PTE_address (addr : Nat) : Nat :=
  ((KERNEL_MEM_LIMIT - 4 * (1 <<< 20)) ||| (addr >>> 10)) &&& (U32 - 4)

structure FreePageResult where
  mem : Nat → Nat
  released : Option Nat
  cr3written : Bool

/-- PageTable::free_page: if the PTE is not present, do nothing; otherwise
release frame pte / PAGE_SIZE to the process pool, overwrite the PTE with
0x2 and reload cr3. -/
def free_page (mem : Nat → Nat) (page_no : Nat) : FreePageResult :=
  let a := PTE_address page_no
  if mem a &&& 0x1 = 0 then ⟨mem, none, false⟩
  else
    let frame_no := mem a / PAGE_SIZE
    ⟨fun x => if x = a then 2 else mem x, some frame_no, true⟩

/-! ## Scheduler ready queue (scheduler.C)

Threads are identified by numbers standing for their TCB pointers; NULL is
Option.none. The queue is the head and tail pointers together with the
next-pointer heap threaded through the TCBs. Neither enqueue nor dequeue
ever writes the next field of the node being inserted or removed, exactly
as in the source. -/

structure SQ where
  heap : Nat → Option Nat
  head : Option Nat
  tail : Option Nat

/-- The empty queue with all next pointers null (threads are constructed
with next = NULL in thread.H). -/
def emptySQ : SQ := ⟨fun _ => none, none, none⟩

/-- Scheduler::enqueue. -/
def enqueue (q : SQ) (t : Nat) : SQ :=
  match q.tail with
  | none => { q with head := some t, tail := some t }
  | some tl =>
    { heap := fun x => if x = tl then some t else q.heap x, head := q.head, tail := some t }

/-- Scheduler::dequeue: returns the removed thread (none for NULL) and the
updated queue. -/
def dequeue (q : SQ) : Option Nat × SQ :=
  match q.head with
  | none => (none, q)
  | some h =>
    let nh := q.heap h
    (some h, { q with head := nh, tail := if nh = none then none else q.tail })

/-- An enqueue or dequeue request against the ready queue. -/
inductive Op where
  | enq (t : Nat)
  | deq
deriving DecidableEq, Repr

/-- Runs a sequence of queue operations on the linked-structure queue and
collects the result of every dequeue. -/
def concRun : SQ → List Op → List (Option Nat)
  | _, [] => []
  | q, .enq t :: ops => concRun (enqueue q t) ops
  | q, .deq :: ops => (dequeue q).1 :: concRun (dequeue q).2 ops

/-- The strict-FIFO queue of the specification's words: enqueue appends,
dequeue returns the earliest-enqueued thread still in the queue (the list
head) and NULL on the empty queue. Used as the reference model that the
linked queue is compared against. -/
def fifoRun : List Nat → List Op → List (Option Nat)
  | _, [] => []
  | l, .enq t :: ops => fifoRun (l ++ [t]) ops
  | l, .deq :: ops => l.head? :: fifoRun l.tail ops

/-- The side condition under which the linked queue is claimed to refine the
FIFO model: every thread being enqueued is not currently queued and has a
null next pointer at that moment (true of freshly constructed threads). -/
def cleanRun : SQ → List Nat → List Op → Bool
  | _, _, [] => true
  | q, l, .enq t :: ops =>
    !decide (t ∈ l) && decide (q.heap t = none) && cleanRun (enqueue q t) (l ++ [t]) ops
  | q, l, .deq :: ops => cleanRun (dequeue q).2 l.tail ops

/-- The chain predicate: each listed thread's next pointer designates the
following listed thread, and the last one's next pointer may be anything
(the queue never reads past tail); the next pointer of element a must be
the head of the remainder, so the last element's is none only as far as
the list is concerned. -/
def linked (h : Nat → Option Nat) : List Nat → Prop
  | [] => True
  | a :: l => h a = l.head? ∧ linked h l

/-- The queue q represents the list l of queued threads in order. -/
def reprQ (q : SQ) (l : List Nat) : Prop :=
  q.head = l.head? ∧ q.tail = l.getLast? ∧ linked q.heap l ∧ l.Nodup

/-- The predecessor-finding loop of Scheduler::terminate:
prev = queue.head; while (prev && prev->next != t) prev = prev->next;
followed by the null/next re-check. Fuel bounds the traversal; every
theorem instantiates it with the queue length, which the loop never
exceeds on a represented queue. -/
def findPrev (h : Nat → Option Nat) (t : Nat) : Nat → Nat → Option Nat
  | 0, _ => none
  | fuel + 1, p =>
    if h p = some t then some p
    else
      match h p with
      | none => none
      | some p' => findPrev h t fuel p'

structure TermResult where
  q : SQ
  destroyed : Bool

/-- The queued-thread path of Scheduler::terminate (the argument is neither
NULL nor the currently running thread). destroyed records whether the
source reached delete _thread. -/
def terminate (fuel : Nat) (q : SQ) (t : Nat) : TermResult :=
  if q.head = q.tail then
    if q.head = some t then ⟨⟨q.heap, none, none⟩, true⟩ else ⟨q, false⟩
  else
    match q.head with
    | none => ⟨q, false⟩
    | some hd =>
      match findPrev q.heap t fuel hd with
      | none => ⟨q, false⟩
      | some p =>
        ⟨{ heap := fun x => if x = p then q.heap t else q.heap x,
           head := q.head,
           tail := if q.tail = some t then some p else q.tail }, true⟩

/-! ## Byte-level views of get_state and set_state

decodeAt b j reads the two-bit state at in-byte position j (0..3) of byte b
with exactly the mask arithmetic of get_state; writeAt b j s is the byte
stored by set_state. They let the pointwise get/set lemmas be settled once
over all 256 byte values. -/

/-- The state read from byte b at in-byte frame position j, as in get_state. -/
def decodeAt (b j : Nat) : FrameState :=
  if b &&& (1 <<< (2 * j)) = 0 then .Free
  else if b &&& ((1 <<< (2 * j)) <<< 1) ≠ 0 then .HoS
  else .Used

/-- The byte stored by set_state when writing state s at in-byte frame
position j of byte b. -/
def writeAt (b j : Nat) (s : FrameState) : Nat :=
  let cleared := b &&& (255 ^^^ (3 <<< (2 * j)))
  match s with
  | .Free => cleared
  | .Used => cleared ||| (1 <<< (2 * j))
  | .HoS => cleared ||| (3 <<< (2 * j))

end MultiProcess

namespace MultiProcess

/-! ## Pointwise characterisation of the bitmap operations -/

theorem base_set_state (c : CFP) (f : Nat) (s : FrameState) :
    (set_state c f s).base = c.base := rfl

theorem nframes_set_state (c : CFP) (f : Nat) (s : FrameState) :
    (set_state c f s).nframes = c.nframes := rfl

theorem nFree_set_state (c : CFP) (f : Nat) (s : FrameState) :
    (set_state c f s).nFree = c.nFree := rfl

theorem sh_arith (f : Nat) : f * 2 &&& 7 = 2 * (f % 4) := by
  have h7 : (7 : Nat) = 2 ^ 3 - 1 := rfl
  rw [h7, Nat.and_pow_two_sub_one_eq_mod]
  omega

theorem slot_arith (f : Nat) : (f * 2) >>> 3 = f / 4 := by
  rw [Nat.shiftRight_eq_div_pow]
  norm_num
  omega

theorem get_state_decode (c : CFP) (f : Nat) :
    get_state c f = decodeAt (c.bitmap (f / 4)) (f % 4) := by
  simp only [get_state, decodeAt, sh_arith, slot_arith]

theorem set_state_decode (c : CFP) (f : Nat) (s : FrameState) :
    (set_state c f s).bitmap =
      fun i => if i = f / 4 then writeAt (c.bitmap (f / 4)) (f % 4) s else c.bitmap i := by
  cases s <;> simp only [set_state, writeAt, sh_arith, slot_arith]

theorem and_mask_mod (b m : Nat) (hm : m < 256) : b &&& m = b % 256 &&& m := by
  have h1 : b % 256 = b &&& 255 := by
    have h := Nat.and_pow_two_sub_one_eq_mod b 8
    norm_num at h
    exact h.symm
  have h2 : 255 &&& m = m := by
    rw [Nat.and_comm, show (255 : Nat) = 2 ^ 8 - 1 by norm_num,
      Nat.and_pow_two_sub_one_eq_mod, Nat.mod_eq_of_lt (by omega)]
  rw [h1, Nat.and_assoc, h2]

theorem decodeAt_mod (b j : Nat) (hj : j < 4) : decodeAt b j = decodeAt (b % 256) j := by
  have hm1 : (1 : Nat) <<< (2 * j) < 256 := by
    rw [Nat.shiftLeft_eq, one_mul]
    calc (2 : Nat) ^ (2 * j) ≤ 2 ^ 6 := Nat.pow_le_pow_right (by omega) (by omega)
    _ < 256 := by norm_num
  have hm2 : ((1 : Nat) <<< (2 * j)) <<< 1 < 256 := by
    rw [Nat.shiftLeft_eq, Nat.shiftLeft_eq, one_mul, ← pow_succ]
    calc (2 : Nat) ^ (2 * j + 1) ≤ 2 ^ 7 := Nat.pow_le_pow_right (by omega) (by omega)
    _ < 256 := by norm_num
  simp only [decodeAt, and_mask_mod b _ hm1, and_mask_mod b _ hm2]

theorem clear_mask_lt (i : Nat) (hi : i < 4) : (255 ^^^ (3 <<< (2 * i))) < 256 := by
  have h3 : (3 : Nat) <<< (2 * i) < 2 ^ 8 := by
    rw [Nat.shiftLeft_eq]
    have := Nat.pow_le_pow_right (show 1 ≤ 2 by omega) (show 2 * i ≤ 6 by omega)
    have h26 : (2 : Nat) ^ 6 = 64 := by norm_num
    have h28 : (2 : Nat) ^ 8 = 256 := by norm_num
    omega
  have h255 : (255 : Nat) < 2 ^ 8 := by norm_num
  have := Nat.xor_lt_two_pow h255 h3
  calc 255 ^^^ (3 <<< (2 * i)) < 2 ^ 8 := this
  _ = 256 := by norm_num

theorem writeAt_mod (b j : Nat) (s : FrameState) (hj : j < 4) :
    writeAt b j s = writeAt (b % 256) j s := by
  cases s <;> simp only [writeAt, and_mask_mod b _ (clear_mask_lt j hj)]

theorem writeAt_lt (b j : Nat) (s : FrameState) (hj : j < 4) : writeAt b j s < 256 := by
  have hand : b &&& (255 ^^^ (3 <<< (2 * j))) < 256 :=
    Nat.lt_of_le_of_lt Nat.and_le_right (clear_mask_lt j hj)
  have h28 : (2 : Nat) ^ 8 = 256 := by norm_num
  have hv1 : (1 : Nat) <<< (2 * j) < 2 ^ 8 := by
    rw [Nat.shiftLeft_eq, one_mul]
    have := Nat.pow_le_pow_right (show 1 ≤ 2 by omega) (show 2 * j ≤ 6 by omega)
    have h26 : (2 : Nat) ^ 6 = 64 := by norm_num
    omega
  have hv3 : (3 : Nat) <<< (2 * j) < 2 ^ 8 := by
    rw [Nat.shiftLeft_eq]
    have := Nat.pow_le_pow_right (show 1 ≤ 2 by omega) (show 2 * j ≤ 6 by omega)
    have h26 : (2 : Nat) ^ 6 = 64 := by norm_num
    omega
  cases s <;> simp only [writeAt]
  · exact hand
  · have := Nat.or_lt_two_pow (Nat.lt_of_lt_of_eq hand h28.symm) hv1
    omega
  · have := Nat.or_lt_two_pow (Nat.lt_of_lt_of_eq hand h28.symm) hv3
    omega

set_option maxRecDepth 8192 in
theorem byteCore : ∀ b < 256, ∀ i < 4, ∀ j < 4,
    (decodeAt (writeAt b i .Free) j = if i = j then .Free else decodeAt b j) ∧
    (decodeAt (writeAt b i .Used) j = if i = j then .Used else decodeAt b j) ∧
    (decodeAt (writeAt b i .HoS) j = if i = j then .HoS else decodeAt b j) := by decide

theorem decode_write (b i j : Nat) (s : FrameState) (hi : i < 4) (hj : j < 4) :
    decodeAt (writeAt b i s) j = if i = j then s else decodeAt b j := by
  rw [writeAt_mod b i s hi, decodeAt_mod (writeAt (b % 256) i s) j hj, decodeAt_mod b j hj,
    Nat.mod_eq_of_lt (writeAt_lt (b % 256) i s hi)]
  have h := byteCore (b % 256) (Nat.mod_lt b (by omega)) i hi j hj
  cases s
  exacts [h.1, h.2.1, h.2.2]

theorem get_set_state (c : CFP) (f : Nat) (s : FrameState) (f' : Nat) :
    get_state (set_state c f s) f' = if f = f' then s else get_state c f' := by
  simp only [get_state_decode, set_state_decode]
  by_cases hslot : f' / 4 = f / 4
  · rw [if_pos hslot, hslot,
      decode_write _ _ _ _ (Nat.mod_lt f (by omega)) (Nat.mod_lt f' (by omega))]
    by_cases hf : f = f'
    · rw [if_pos hf, if_pos (by omega)]
    · rw [if_neg hf, if_neg (by omega)]
  · rw [if_neg hslot, if_neg (by omega)]

theorem get_set_state_same (c : CFP) (f : Nat) (s : FrameState) :
    get_state (set_state c f s) f = s := by
  rw [get_set_state, if_pos rfl]

theorem get_set_state_ne (c : CFP) (f : Nat) (s : FrameState) (f' : Nat) (h : f ≠ f') :
    get_state (set_state c f s) f' = get_state c f' := by
  rw [get_set_state, if_neg h]

/-! ## Range-update and scan lemmas for the frame pool -/

theorem setRange_base (c : CFP) (s : FrameState) (fno k : Nat) :
    (setRange c s fno k).base = c.base := by
  induction k generalizing c fno with
  | zero => rfl
  | succ k ih => rw [setRange, ih, base_set_state]

theorem setRange_nframes (c : CFP) (s : FrameState) (fno k : Nat) :
    (setRange c s fno k).nframes = c.nframes := by
  induction k generalizing c fno with
  | zero => rfl
  | succ k ih => rw [setRange, ih, nframes_set_state]

theorem setRange_nFree (c : CFP) (s : FrameState) (fno k : Nat) :
    (setRange c s fno k).nFree = c.nFree := by
  induction k generalizing c fno with
  | zero => rfl
  | succ k ih => rw [setRange, ih, nFree_set_state]

theorem get_setRange (c : CFP) (s : FrameState) (fno k j : Nat) :
    get_state (setRange c s fno k) j =
      if fno ≤ j ∧ j < fno + k then s else get_state c j := by
  induction k generalizing c fno with
  | zero => rw [setRange, if_neg (by omega)]
  | succ k ih =>
    rw [setRange, ih, get_set_state]
    by_cases h1 : fno + 1 ≤ j ∧ j < fno + 1 + k
    · rw [if_pos h1, if_pos (by omega)]
    · rw [if_neg h1]
      by_cases h2 : fno = j
      · rw [if_pos h2, if_pos (by omega)]
      · rw [if_neg h2, if_neg (by omega)]

theorem scanAux_spec (c : CFP) (n : Nat) (hn : 1 ≤ n) :
    ∀ rem fno free start s,
      free < n →
      free ≤ fno →
      (∀ j, fno - free ≤ j → j < fno → get_state c j = .Free) →
      scanAux c n rem fno free start = (s, n) →
      (∀ j, s ≤ j → j < s + n → get_state c j = .Free) ∧ s + n ≤ fno + rem := by
  intro rem
  induction rem with
  | zero =>
    intro fno free start s hfn _ _ heq
    rw [scanAux] at heq
    obtain ⟨-, h2⟩ := Prod.mk.injEq .. ▸ heq
    omega
  | succ rem ih =>
    intro fno free start s hfn hff hwin heq
    rw [scanAux] at heq
    by_cases hst : get_state c fno = .Free
    · simp only [hst, if_pos] at heq
      by_cases hdone : free + 1 = n
      · rw [if_pos hdone] at heq
        obtain ⟨h1, -⟩ := Prod.mk.injEq .. ▸ heq
        subst h1
        refine ⟨?_, by omega⟩
        intro j hj1 hj2
        by_cases hjf : j = fno
        · exact hjf ▸ hst
        · exact hwin j (by omega) (by omega)
      · rw [if_neg hdone] at heq
        obtain ⟨h1, h2⟩ := ih (fno + 1) (free + 1) start s (by omega) (by omega)
          (fun j hj1 hj2 => by
            by_cases hjf : j = fno
            · exact hjf ▸ hst
            · exact hwin j (by omega) (by omega)) heq
        exact ⟨h1, by omega⟩
    · simp only [hst, if_neg, if_false] at heq
      have h0n : ¬((0 : Nat) = n) := by omega
      rw [if_neg h0n] at heq
      obtain ⟨h1, h2⟩ := ih (fno + 1) 0 start s (by omega) (by omega)
        (fun j hj1 hj2 => by omega) heq
      exact ⟨h1, by omega⟩

theorem relLoop_nFree (k : Nat) : ∀ (fuel : Nat) (c : CFP) (fno : Nat),
    1 ≤ k → k ≤ fuel →
    fno + k ≤ c.nframes →
    (∀ i, 1 ≤ i → i < k → get_state c (fno + i) = .Used) →
    ¬(get_state c (fno + k) = .Used ∧ fno + k < c.nframes) →
    (relLoop fuel c fno).1.nFree = c.nFree + k := by
  induction k with
  | zero => omega
  | succ k ih =>
    intro fuel c fno _ hfuel h2 hmid hstop
    obtain ⟨fu, rfl⟩ : ∃ m, fuel = m + 1 := ⟨fuel - 1, by omega⟩
    rw [relLoop]
    have hsame : ∀ j, j ≠ fno →
        get_state { set_state c fno .Free with nFree := c.nFree + 1 } j = get_state c j :=
      fun j hj => get_set_state_ne c fno .Free j (fun h => hj h.symm)
    have hnf : ({ set_state c fno .Free with nFree := c.nFree + 1 } : CFP).nframes =
        c.nframes := rfl
    have hnfree : ({ set_state c fno .Free with nFree := c.nFree + 1 } : CFP).nFree =
        c.nFree + 1 := rfl
    by_cases hk : k = 0
    · subst hk
      have hcond : ¬(get_state { set_state c fno .Free with nFree := c.nFree + 1 } (fno + 1) =
          .Used ∧
          fno + 1 < ({ set_state c fno .Free with nFree := c.nFree + 1 } : CFP).nframes) := by
        rw [hsame (fno + 1) (by omega), hnf]
        exact hstop
      rw [if_neg hcond]
    · have hcond : get_state { set_state c fno .Free with nFree := c.nFree + 1 } (fno + 1) =
          .Used ∧
          fno + 1 < ({ set_state c fno .Free with nFree := c.nFree + 1 } : CFP).nframes := by
        constructor
        · rw [hsame (fno + 1) (by omega)]
          exact hmid 1 (by omega) (by omega)
        · rw [hnf]
          omega
      rw [if_pos hcond]
      have hrec := ih fu { set_state c fno .Free with nFree := c.nFree + 1 } (fno + 1)
        (by omega) (by omega) (by rw [hnf]; omega)
        (fun i hi1 hi2 => by
          rw [hsame (fno + 1 + i) (by omega)]
          have h := hmid (i + 1) (by omega) (by omega)
          rw [show fno + (i + 1) = fno + 1 + i by omega] at h
          exact h)
        (by
          rw [hsame (fno + 1 + k) (by omega), hnf,
            show fno + 1 + k = fno + (k + 1) by omega]
          exact hstop)
      rw [hrec, hnfree]
      omega

theorem usub_uadd (a b : Nat) (ha : a < U32) : usub (uadd a b) b = a := by
  have hU : U32 = 4294967296 := by norm_num [U32]
  simp only [uadd, usub, hU] at *
  omega

/-! ## Ready-queue representation lemmas -/

theorem linked_update_not_mem (h : Nat → Option Nat) (p : Nat) (v : Option Nat)
    (l : List Nat) (hp : p ∉ l) (hl : linked h l) :
    linked (fun x => if x = p then v else h x) l := by
  induction l with
  | nil => trivial
  | cons a l ih =>
    obtain ⟨h1, h2⟩ := hl
    refine ⟨?_, ih (fun hm => hp (List.mem_cons_of_mem a hm)) h2⟩
    have ha : a ≠ p := fun he => hp (he ▸ List.mem_cons_self a l)
    simp only [if_neg ha]
    exact h1

theorem linked_snoc (h : Nat → Option Nat) (t tl : Nat) :
    ∀ l : List Nat, linked h l → l.getLast? = some tl → l.Nodup →
      h t = none → t ∉ l →
      linked (fun x => if x = tl then some t else h x) (l ++ [t]) := by
  intro l
  induction l with
  | nil => intro _ hlast _ _ _; simp at hlast
  | cons a l ih =>
    intro hl hlast hnd hht htl
    obtain ⟨h1, h2⟩ := hl
    cases l with
    | nil =>
      have hta : a = tl := by simpa using hlast
      subst hta
      refine ⟨by simp, ?_, trivial⟩
      have htne : t ≠ a := fun he => htl (by simp [he])
      show (if t = a then some t else h t) = none
      rw [if_neg htne]
      exact hht
    | cons b l' =>
      have hlast' : (b :: l').getLast? = some tl := by
        rw [← List.getLast?_cons_cons]
        exact hlast
      have hab : a ≠ tl := by
        intro he
        have hmem : tl ∈ b :: l' := List.mem_of_getLast?_eq_some hlast'
        rw [he] at hnd
        exact (List.nodup_cons.mp hnd).1 hmem
      refine ⟨?_, ih h2 hlast' (List.nodup_cons.mp hnd).2 hht
        (fun hm => htl (List.mem_cons_of_mem a hm))⟩
      show (if a = tl then some t else h a) = ((b :: l') ++ [t]).head?
      rw [if_neg hab, h1]
      simp

theorem enqueue_reprQ (q : SQ) (l : List Nat) (t : Nat) (hq : reprQ q l)
    (ht : t ∉ l) (hh : q.heap t = none) : reprQ (enqueue q t) (l ++ [t]) := by
  obtain ⟨h1, h2, h3, h4⟩ := hq
  cases l with
  | nil =>
    simp only [List.getLast?_nil] at h2
    simp [enqueue, h2, reprQ, linked, hh]
  | cons a l' =>
    have hex : ∃ tl, q.tail = some tl := by
      cases htl : q.tail with
      | none =>
        exfalso
        rw [htl] at h2
        have hs : (a :: l').getLast?.isSome := List.getLast?_isSome.mpr (by simp)
        rw [← h2] at hs
        simp at hs
      | some tl => exact ⟨tl, rfl⟩
    obtain ⟨tl, htl⟩ := hex
    have hlast : (a :: l').getLast? = some tl := by rw [← h2, htl]
    have hconcat : (a :: (l' ++ [t])).getLast? = some t := by
      rw [← List.cons_append]
      exact List.getLast?_concat _
    refine ⟨?_, ?_, ?_, ?_⟩
    · simp [enqueue, htl, h1]
    · simp [enqueue, htl, hconcat]
    · simp only [enqueue, htl]
      exact linked_snoc q.heap t tl (a :: l') h3 hlast h4 hh ht
    · rw [show a :: l' ++ [t] = (a :: l') ++ [t] from rfl, List.nodup_append]
      refine ⟨h4, by simp, ?_⟩
      intro x hx hxt
      rw [List.mem_singleton] at hxt
      subst hxt
      exact ht hx

theorem dequeue_reprQ_nil (q : SQ) (hq : reprQ q []) : dequeue q = (none, q) := by
  obtain ⟨h1, -, -, -⟩ := hq
  simp only [List.head?_nil] at h1
  simp [dequeue, h1]

theorem dequeue_reprQ_cons (q : SQ) (a : Nat) (l : List Nat) (hq : reprQ q (a :: l)) :
    (dequeue q).1 = some a ∧ reprQ (dequeue q).2 l := by
  obtain ⟨h1, h2, h3, h4⟩ := hq
  simp only [List.head?_cons] at h1
  obtain ⟨h3a, h3b⟩ := h3
  cases l with
  | nil =>
    simp only [List.head?_nil] at h3a
    refine ⟨by simp [dequeue, h1], ?_⟩
    simp [dequeue, h1, h3a, reprQ, linked]
  | cons b l' =>
    simp only [List.head?_cons] at h3a
    refine ⟨by simp [dequeue, h1], ?_, ?_, ?_, ?_⟩
    · simp [dequeue, h1, h3a]
    · simp only [dequeue, h1, h3a]
      rw [h2]
      simp
    · simp only [dequeue, h1, h3a]
      exact h3b
    · exact (List.nodup_cons.mp h4).2

theorem concRun_fifo (ops : List Op) : ∀ (q : SQ) (l : List Nat),
    reprQ q l → cleanRun q l ops = true → concRun q ops = fifoRun l ops := by
  induction ops with
  | nil => intro q l _ _; rfl
  | cons op ops ih =>
    intro q l hq hc
    cases op with
    | enq t =>
      rw [concRun, fifoRun]
      simp only [cleanRun, Bool.and_eq_true, Bool.not_eq_true',
        decide_eq_true_eq, decide_eq_false_iff_not] at hc
      obtain ⟨⟨hmem, hheap⟩, hrest⟩ := hc
      exact ih (enqueue q t) (l ++ [t]) (enqueue_reprQ q l t hq hmem hheap) hrest
    | deq =>
      rw [concRun, fifoRun]
      cases l with
      | nil =>
        have hd := dequeue_reprQ_nil q hq
        rw [cleanRun] at hc
        rw [hd]
        simp only [List.head?_nil, List.tail_nil]
        rw [hd] at hc
        exact congrArg (none :: ·) (ih q [] hq hc)
      | cons a l' =>
        obtain ⟨hd1, hd2⟩ := dequeue_reprQ_cons q a l' hq
        rw [cleanRun] at hc
        rw [hd1]
        simp only [List.head?_cons, List.tail_cons]
        exact congrArg (some a :: ·) (ih (dequeue q).2 l' hd2 hc)

/-! ## Terminate lemmas: predecessor search and unlinking -/

theorem findPrev_spec (h : Nat → Option Nat) (t : Nat) :
    ∀ (l₁ : List Nat) (p : Nat) (l₂ : List Nat) (fuel hd : Nat),
      linked h (l₁ ++ p :: t :: l₂) → (l₁ ++ p :: t :: l₂).Nodup →
      l₁.length + 1 ≤ fuel →
      (l₁ ++ p :: t :: l₂).head? = some hd →
      findPrev h t fuel hd = some p := by
  intro l₁
  induction l₁ with
  | nil =>
    intro p l₂ fuel hd hl hnd hfuel hhd
    simp only [List.nil_append, List.head?_cons, Option.some.injEq] at hhd
    subst hhd
    obtain ⟨fuel, rfl⟩ : ∃ k, fuel = k + 1 := ⟨fuel - 1, by omega⟩
    obtain ⟨h1, -⟩ := hl
    simp only [List.head?_cons] at h1
    simp [findPrev, h1]
  | cons a l₁ ih =>
    intro p l₂ fuel hd hl hnd hfuel hhd
    simp only [List.cons_append, List.head?_cons, Option.some.injEq] at hhd
    subst hhd
    obtain ⟨fuel, rfl⟩ : ∃ k, fuel = k + 1 := ⟨fuel - 1, by omega⟩
    rw [List.cons_append] at hl hnd
    obtain ⟨h1, h2⟩ := hl
    have hnd' := (List.nodup_cons.mp hnd).2
    have hstep : ∃ nxt, h a = some nxt ∧ nxt ≠ t ∧
        (l₁ ++ p :: t :: l₂).head? = some nxt := by
      cases l₁ with
      | nil =>
        refine ⟨p, h1, ?_, rfl⟩
        intro he
        subst he
        exact (List.nodup_cons.mp hnd').1 (List.mem_cons_self p l₂)
      | cons x l₁' =>
        refine ⟨x, h1, ?_, rfl⟩
        intro he
        subst he
        exact (List.nodup_append.mp hnd').2.2 (List.mem_cons_self x l₁')
          (List.mem_cons_of_mem p (List.mem_cons_self x l₂))
    obtain ⟨nxt, hnxt, hne, hhead⟩ := hstep
    rw [findPrev, if_neg (by rw [hnxt]; simp [hne]), hnxt]
    have hlen : l₁.length + 1 ≤ fuel := by
      simp only [List.length_cons] at hfuel
      omega
    exact ih p l₂ fuel nxt h2 hnd' hlen hhead

theorem linked_unlink (h : Nat → Option Nat) (t : Nat) :
    ∀ (l₁ : List Nat) (p : Nat) (l₂ : List Nat),
      linked h (l₁ ++ p :: t :: l₂) → (l₁ ++ p :: t :: l₂).Nodup →
      linked (fun x => if x = p then h t else h x) (l₁ ++ p :: l₂) := by
  intro l₁
  induction l₁ with
  | nil =>
    intro p l₂ hl hnd
    obtain ⟨h1, h2, h3⟩ : h p = (t :: l₂).head? ∧ h t = l₂.head? ∧ linked h l₂ := hl
    have hpl : p ∉ l₂ := by
      have hx : p ∉ t :: l₂ := (List.nodup_cons.mp hnd).1
      exact fun hm => hx (List.mem_cons_of_mem t hm)
    refine ⟨?_, linked_update_not_mem h p (h t) l₂ hpl h3⟩
    show (if p = p then h t else h p) = l₂.head?
    rw [if_pos rfl, h2]
  | cons a l₁ ih =>
    intro p l₂ hl hnd
    rw [List.cons_append] at hl hnd
    obtain ⟨h1, h2⟩ := hl
    have hnd' := (List.nodup_cons.mp hnd).2
    have hap : a ≠ p := by
      intro he
      subst he
      exact (List.nodup_cons.mp hnd).1
        (List.mem_append_right l₁ (List.mem_cons_self a (t :: l₂)))
    rw [List.cons_append]
    refine ⟨?_, ih p l₂ h2 hnd'⟩
    show (if a = p then h t else h a) = (l₁ ++ p :: l₂).head?
    rw [if_neg hap, h1]
    cases l₁ <;> simp

theorem headNeLast (l₁' : List Nat) (p t : Nat) (l₂ : List Nat)
    (hnd : (l₁' ++ p :: t :: l₂).Nodup) :
    (l₁' ++ p :: t :: l₂).head? ≠ (l₁' ++ p :: t :: l₂).getLast? := by
  intro he
  have hgl : (l₁' ++ p :: t :: l₂).getLast? = (t :: l₂).getLast? := by
    rw [List.getLast?_append_cons, List.getLast?_cons_cons]
  have hsome : ((t :: l₂).getLast?).isSome := List.getLast?_isSome.mpr (by simp)
  obtain ⟨ls, hls⟩ := Option.isSome_iff_exists.mp hsome
  have hlsmem : ls ∈ t :: l₂ := List.mem_of_getLast?_eq_some hls
  cases l₁' with
  | nil =>
    simp only [List.nil_append, List.head?_cons] at he hgl
    rw [hgl, hls] at he
    obtain rfl := Option.some_inj.mp he
    exact (List.nodup_cons.mp hnd).1 hlsmem
  | cons a l₁'' =>
    simp only [List.cons_append, List.head?_cons] at he hgl
    rw [hgl, hls] at he
    obtain rfl := Option.some_inj.mp he
    exact (List.nodup_cons.mp hnd).1
      (List.mem_append_right _ (List.mem_cons_of_mem p hlsmem))

/-! ## Claim theorems -/

/-- C3 counterexample: on the VMPool with base 0x2000_0000 and size 256 MiB,
after allocate(1), allocate(0x2000) and release(0x2000_2000), the final
allocate(0x1000) does not return 0x2000_2000 as the claim states: the
first-fit scan of the free array finds slot 0 (the large remainder region,
now based at 0x2000_5000) before slot 1 (the freed region). -/
theorem C3_counterexample :
    (allocate (release (allocate (allocate (mkVMPool 0x20000000 (256 * 1048576)) 1).2
      0x2000).2 0x20002000) 0x1000).1 ≠ 0x20002000 := by decide

/-- C3 amended: the first allocate returns 0x2000_2000 and the second
0x2000_3000 as claimed, but after release(0x2000_2000) the final
allocate(0x1000) returns 0x2000_5000, the base of the first free slot that
fits (the remainder region in free[0]), not the freed region in free[1]. -/
theorem C3_vmpool_scenario :
    (allocate (mkVMPool 0x20000000 (256 * 1048576)) 1).1 = 0x20002000 ∧
    (allocate (allocate (mkVMPool 0x20000000 (256 * 1048576)) 1).2 0x2000).1 = 0x20003000 ∧
    (allocate (release (allocate (allocate (mkVMPool 0x20000000 (256 * 1048576)) 1).2
      0x2000).2 0x20002000) 0x1000).1 = 0x20005000 := by decide

/-- C4: ContFramePool::mark_inaccessible is not equivalent to get_frames on
the range. On a pool with base_frame_no = 4, nframes = 8, all frames free
(external info frame), mark_inaccessible(4, 2) leaves pool-relative frame 0
(the head of the range) in state Used rather than HeadOfSequence, writes
HeadOfSequence at pool-relative index 4 (it passes the unadjusted absolute
frame number to set_state), and leaves nFreeFrames at 8, while get_frames(2)
on the same pool marks frame 0 HeadOfSequence and drops nFreeFrames to 6. -/
theorem C4_mark_inaccessible_bug :
    get_state (mark_inaccessible (mkPool 4 8 9 (fun _ => 0)) 4 2) 0 = .Used ∧
    get_state (mark_inaccessible (mkPool 4 8 9 (fun _ => 0)) 4 2) 1 = .Used ∧
    get_state (mark_inaccessible (mkPool 4 8 9 (fun _ => 0)) 4 2) 4 = .HoS ∧
    (mark_inaccessible (mkPool 4 8 9 (fun _ => 0)) 4 2).nFree = 8 ∧
    get_state ((get_frames (mkPool 4 8 9 (fun _ => 0)) 2).2) 0 = .HoS ∧
    ((get_frames (mkPool 4 8 9 (fun _ => 0)) 2).2).nFree = 6 := by decide

/-- C5 counterexample: after constructing the kernel pool (base 512,
512 frames, info_frame_no 0, over zeroed memory), the first bitmap byte is
not 0b11101010 and frame 1 is not Used: only one info frame is needed
(needed_info_frames 512 = 1 with INFO_FRAME_CAPACITY = 16384), so only
frame 0 is non-free. -/
theorem C5_counterexample :
    (mkPool 512 512 0 (fun _ => 0)).bitmap 0 ≠ 0b11101010 ∧
    get_state (mkPool 512 512 0 (fun _ => 0)) 1 ≠ .Used := by decide

/-- C5 amended: the kernel pool with base 512, 512 frames and in-pool
management information has first bitmap byte 0b00000011 (frame 0
HeadOfSequence, frames 1..3 and all later frames Free) and
nFreeFrames = 511. -/
theorem C5_kernel_pool_init :
    (mkPool 512 512 0 (fun _ => 0)).bitmap 0 = 0b00000011 ∧
    get_state (mkPool 512 512 0 (fun _ => 0)) 0 = .HoS ∧
    get_state (mkPool 512 512 0 (fun _ => 0)) 1 = .Free ∧
    get_state (mkPool 512 512 0 (fun _ => 0)) 2 = .Free ∧
    get_state (mkPool 512 512 0 (fun _ => 0)) 3 = .Free ∧
    (mkPool 512 512 0 (fun _ => 0)).nFree = 511 := by decide

/-- C6: a reachable pool state in which an allocated run of Used frames
extends to the pool's final frame makes _release_frames read the bitmap one
past the last valid frame index. The pool (base 7, 4 frames, external info
frame) after get_frames(4) has its final frame (index 3) Used; releasing
the run's head (get_frames returned 7, pool-relative index usub 7 7 = 0)
drives the do-while loop to consult get_state at indices 1, 2, 3 and 4,
where 4 = nframes is one past the last valid frame, because the state
check precedes the bounds check. -/
theorem C6_release_reads_one_past_end :
    (mkPool 7 4 9 (fun _ => 0)).nframes = 4 ∧
    (get_frames (mkPool 7 4 9 (fun _ => 0)) 4).1 = 7 ∧
    get_state (get_frames (mkPool 7 4 9 (fun _ => 0)) 4).2 3 = .Used ∧
    (releaseFramesIn (get_frames (mkPool 7 4 9 (fun _ => 0)) 4).2 (usub 7 7)).2 =
      [1, 2, 3, 4] := by decide

/-- C8: PageTable::free_page is a no-op when the PTE reached through the
recursive window has its present bit clear; otherwise it releases frame
pte / PAGE_SIZE to the process frame pool, overwrites the PTE with 0x2 and
flushes the TLB by rewriting cr3. -/
theorem C8_free_page (mem : Nat → Nat) (p : Nat) :
    (mem (PTE_address p) &&& 0x1 = 0 → free_page mem p = ⟨mem, none, false⟩) ∧
    (mem (PTE_address p) &&& 0x1 ≠ 0 →
      (free_page mem p).released = some (mem (PTE_address p) / PAGE_SIZE) ∧
      (free_page mem p).mem (PTE_address p) = 2 ∧
      (∀ x, x ≠ PTE_address p → (free_page mem p).mem x = mem x) ∧
      (free_page mem p).cr3written = true) := by
  constructor
  · intro h
    simp [free_page, h]
  · intro h
    rw [Nat.and_one_is_mod] at h
    refine ⟨by simp [free_page, h], by simp [free_page, h], ?_, by simp [free_page, h]⟩
    intro x hx
    simp [free_page, h, hx]

/-- C8 witness: a memory whose PTEs are all 0x5003 has page 4096's PTE
present; free_page releases frame 5, clears the PTE to 0x2 and rewrites
cr3. A memory of not-present entries (0x2) is untouched. -/
theorem C8_free_page_witness :
    free_page (fun _ => 2) 0 = ⟨fun _ => 2, none, false⟩ ∧
    (free_page (fun _ => 0x5003) 4096).released = some 5 ∧
    (free_page (fun _ => 0x5003) 4096).mem (PTE_address 4096) = 2 ∧
    (free_page (fun _ => 0x5003) 4096).cr3written = true := by
  refine ⟨(C8_free_page (fun _ => 2) 0).1 (by decide), ?_, ?_, ?_⟩
  · have h := ((C8_free_page (fun _ => 0x5003) 4096).2 (by decide)).1
    simpa using h
  · exact ((C8_free_page (fun _ => 0x5003) 4096).2 (by decide)).2.1
  · exact ((C8_free_page (fun _ => 0x5003) 4096).2 (by decide)).2.2.2

/-- C9: VMPool::allocate returns the sentinel 0 and leaves the pool state
(including both region arrays) unchanged whenever the request is 0, exceeds
size - 2*PAGE_SIZE, or no free slot can hold the page-rounded size; and a
request of exactly size - 2*PAGE_SIZE is not rejected by the size check.
The bounds size > 2*PAGE_SIZE (asserted by the constructor) and
size < 2^32 (the unsigned long range) are carried as hypotheses. -/
theorem C9_allocate_errors (p : VMP) (s : Nat)
    (hsz : 2 * PAGE_SIZE < p.size) (hlt : p.size < U32) :
    ((s = 0 ∨ s > usub p.size (2 * PAGE_SIZE) ∨
        ∀ i, i < MAX_REGIONS → (p.free i).size < adjSize s) →
      allocate p s = (0, p)) ∧
    ¬invalidSize p (usub p.size (2 * PAGE_SIZE)) := by
  have hU : U32 = 4294967296 := by norm_num [U32]
  have hP : PAGE_SIZE = 4096 := rfl
  have husub : usub p.size (2 * PAGE_SIZE) = p.size - 2 * PAGE_SIZE := by
    simp only [usub, hU, hP] at *
    omega
  constructor
  · intro hcase
    by_cases hinv : invalidSize p s
    · simp only [allocate, if_pos hinv]
    · have h3 : ∀ i, i < MAX_REGIONS → (p.free i).size < adjSize s := by
        rcases hcase with h | h | h
        · exact absurd (Or.inl h) hinv
        · exact absurd (Or.inr h) hinv
        · exact h
      have hfind : (List.range MAX_REGIONS).find?
          (fun i => decide ((p.free i).size ≥ adjSize s)) = none := by
        rw [List.find?_eq_none]
        intro i hi
        simp only [decide_eq_true_eq, ge_iff_le, not_le]
        exact h3 i (List.mem_range.mp hi)
      simp only [allocate, if_neg hinv, hfind]
  · simp only [invalidSize, husub, hP] at *
    omega

/-- C9 witness: on the VMPool with base 64 and size 12288 (three pages), an
allocate of size 0 returns 0 with the pool unchanged, and a request of
exactly size - 2*PAGE_SIZE = 4096 is not rejected by the size check. -/
theorem C9_allocate_errors_witness :
    2 * PAGE_SIZE < (mkVMPool 64 12288).size ∧
    (mkVMPool 64 12288).size < U32 ∧
    allocate (mkVMPool 64 12288) 0 = (0, mkVMPool 64 12288) ∧
    ¬invalidSize (mkVMPool 64 12288) (usub (mkVMPool 64 12288).size (2 * PAGE_SIZE)) := by
  have h := C9_allocate_errors (mkVMPool 64 12288) 0 (by decide) (by decide)
  exact ⟨by decide, by decide, h.1 (Or.inl rfl), h.2⟩

/-- C7: for every pool state satisfying the CFP invariants and every
n >= 1, if get_frames(n) succeeds with r != 0, then release_frames(r)
(through the pool registry holding the updated pool) brings nFreeFrames
back to exactly its value before the get_frames call. -/
theorem C7_get_release_roundtrip (c : CFP) (n : Nat) (hn : 1 ≤ n) (hinv : CFPInv c)
    (r : Nat) (c' : CFP) (hget : get_frames c n = (r, c')) (hr : r ≠ 0) :
    (release_frames [c'] r).map CFP.nFree = [c.nFree] := by
  obtain ⟨hbase, hnfr, hcount, hstruct⟩ := hinv
  by_cases hg : n > c.nFree
  · rw [get_frames, if_pos hg] at hget
    exact absurd (congrArg Prod.fst hget).symm hr
  · obtain ⟨st, fr, hsf⟩ : ∃ st fr, scanAux c n c.nframes 0 0 0 = (st, fr) := ⟨_, _, rfl⟩
    simp only [get_frames, if_neg hg, hsf] at hget
    by_cases hfr : n = fr
    · subst hfr
      rw [if_neg (by simp)] at hget
      have hre : r = uadd st c.base := (congrArg Prod.fst hget).symm
      have hce : c' = { set_state (setRange c .Used st n) st .HoS with
          nFree := (set_state (setRange c .Used st n) st .HoS).nFree - n } :=
        (congrArg Prod.snd hget).symm
      obtain ⟨hfree, hbound⟩ := scanAux_spec c n hn c.nframes 0 0 0 st (by omega)
        (by omega) (fun j h1 h2 => absurd h2 (by omega)) hsf
      have hb' : c'.base = c.base := by
        rw [hce]
        show (set_state (setRange c .Used st n) st .HoS).base = c.base
        rw [base_set_state, setRange_base]
      have hnf' : c'.nframes = c.nframes := by
        rw [hce]
        show (set_state (setRange c .Used st n) st .HoS).nframes = c.nframes
        rw [nframes_set_state, setRange_nframes]
      have hnFree' : c'.nFree = c.nFree - n := by
        rw [hce]
        show (set_state (setRange c .Used st n) st .HoS).nFree - n = c.nFree - n
        rw [nFree_set_state, setRange_nFree]
      have hgs' : ∀ j, get_state c' j =
          if j = st then .HoS else
          if st ≤ j ∧ j < st + n then .Used else get_state c j := by
        intro j
        rw [hce]
        show get_state (set_state (setRange c .Used st n) st .HoS) j = _
        rw [get_set_state]
        by_cases hj : st = j
        · rw [if_pos hj, if_pos hj.symm]
        · rw [if_neg hj, if_neg (fun he => hj he.symm), get_setRange]
      have hstn : st + n ≤ c.nframes := by omega
      have hadj : usub r c'.base = st := by
        rw [hre, hb']
        exact usub_uadd st c.base (by omega)
      rw [release_frames, hadj, if_pos (by rw [hnf']; omega)]
      have hHoS : get_state c' st = .HoS := by rw [hgs' st, if_pos rfl]
      have hloop : (relLoop (c'.nframes + 1) c' st).1.nFree = c'.nFree + n := by
        apply relLoop_nFree n (c'.nframes + 1) c' st hn (by rw [hnf']; omega)
          (by rw [hnf']; omega)
        · intro i hi1 hi2
          rw [hgs' (st + i), if_neg (by omega), if_pos ⟨by omega, by omega⟩]
        · rw [hnf']
          rintro ⟨hU, hlt2⟩
          rw [hgs' (st + n), if_neg (by omega), if_neg (by omega)] at hU
          obtain ⟨h, hh1, hh2, hh3⟩ := hstruct (st + n) hlt2 hU
          by_cases hcase1 : h < st
          · have hused := hh3 st (by omega) (by omega)
            rw [hfree st (le_refl st) (by omega)] at hused
            simp at hused
          · by_cases hcase2 : h < st + n
            · have hFree := hfree h (by omega) (by omega)
              rw [hFree] at hh2
              simp at hh2
            · have heq : h = st + n := by omega
              rw [heq, hU] at hh2
              simp at hh2
      rw [releaseFramesIn, if_neg (by rw [hHoS]; simp), List.map_cons, List.map_nil,
        hloop, hnFree']
      have hnn : n ≤ c.nFree := by omega
      congr 1
      omega
    · rw [if_pos (by simpa using Ne.symm hfr)] at hget
      exact absurd (congrArg Prod.fst hget).symm hr

/-- C7 witness: the all-free pool with base 1 and 4 frames satisfies the
CFP invariants; get_frames(2) succeeds returning 1, and releasing it
through the registry restores nFreeFrames to 4. -/
theorem C7_get_release_roundtrip_witness :
    1 ≤ 2 ∧ CFPInv (mkPool 1 4 9 (fun _ => 0)) ∧
    (get_frames (mkPool 1 4 9 (fun _ => 0)) 2).1 ≠ 0 ∧
    (release_frames [(get_frames (mkPool 1 4 9 (fun _ => 0)) 2).2]
        (get_frames (mkPool 1 4 9 (fun _ => 0)) 2).1).map CFP.nFree =
      [(mkPool 1 4 9 (fun _ => 0)).nFree] :=
  ⟨by omega, by decide, by decide,
    C7_get_release_roundtrip (mkPool 1 4 9 (fun _ => 0)) 2 (by omega) (by decide)
      (get_frames (mkPool 1 4 9 (fun _ => 0)) 2).1
      (get_frames (mkPool 1 4 9 (fun _ => 0)) 2).2 rfl (by decide)⟩

/-- C1 counterexample: on the queue holding threads 1 and 2 (in that
order), terminate(1) with 1 queued and not running neither unlinks nor
destroys thread 1: the predecessor scan starts at the head and only ever
tests prev->next, so the head of a multi-element queue is never found, and
the source returns leaving the queue intact. -/
theorem C1_counterexample :
    reprQ (enqueue (enqueue emptySQ 1) 2) [1, 2] ∧
    (terminate 2 (enqueue (enqueue emptySQ 1) 2) 1).destroyed = false ∧
    (terminate 2 (enqueue (enqueue emptySQ 1) 2) 1).q = enqueue (enqueue emptySQ 1) 2 :=
  ⟨⟨rfl, rfl, ⟨rfl, rfl, trivial⟩, by decide⟩, by decide, rfl⟩

/-- C1 amended: for every represented queue state and every queued thread t
that is not the currently running thread, terminate(t) unlinks t from the
singly-linked queue (updating head and tail as needed), destroys t, and
leaves the remaining queued threads in their original relative order —
provided t is the sole queued thread or is not the head of the queue.
(Terminating the head of a queue with two or more threads is a no-op, as
the counterexample shows.) -/
theorem C1_terminate_amended (q : SQ) (l : List Nat) (t : Nat)
    (hq : reprQ q l) (ht : t ∈ l) (hhead : l.head? = some t → l = [t]) :
    (terminate l.length q t).destroyed = true ∧
    reprQ (terminate l.length q t).q (l.erase t) := by
  obtain ⟨h1, h2, h3, h4⟩ := hq
  by_cases hsingle : l = [t]
  · subst hsingle
    simp only [List.head?_cons] at h1
    simp only [List.getLast?_singleton] at h2
    have hterm : terminate [t].length q t = ⟨⟨q.heap, none, none⟩, true⟩ := by
      rw [terminate, if_pos (by rw [h1, h2]), if_pos h1]
    rw [hterm, List.erase_cons_head]
    exact ⟨rfl, rfl, rfl, trivial, List.nodup_nil⟩
  · have hth : l.head? ≠ some t := fun he => hsingle (hhead he)
    obtain ⟨l₁, l₂, hdecomp⟩ := List.append_of_mem ht
    have hl₁ne : l₁ ≠ [] := by
      intro he
      apply hth
      rw [hdecomp, he]
      simp
    obtain ⟨l₁', p, hl₁⟩ : ∃ L b, l₁ = L ++ [b] := by
      rcases List.eq_nil_or_concat l₁ with he | ⟨L, b, hc⟩
      · exact absurd he hl₁ne
      · exact ⟨L, b, by rw [hc, List.concat_eq_append]⟩
    rw [hl₁] at hdecomp
    have hdec : l = l₁' ++ p :: t :: l₂ := by rw [hdecomp]; simp
    subst hdec
    clear hdecomp ht hth hsingle hl₁ne
    have hne : q.head ≠ q.tail := by
      rw [h1, h2]
      exact headNeLast l₁' p t l₂ h4
    obtain ⟨hd, hhd⟩ : ∃ hd, (l₁' ++ p :: t :: l₂).head? = some hd := by
      cases l₁' <;> exact ⟨_, rfl⟩
    have hqh : q.head = some hd := h1.trans hhd
    have hfp : findPrev q.heap t (l₁' ++ p :: t :: l₂).length hd = some p := by
      apply findPrev_spec q.heap t l₁' p l₂ _ hd h3 h4 ?_ hhd
      simp only [List.length_append, List.length_cons]
      omega
    have hterm : terminate (l₁' ++ p :: t :: l₂).length q t =
        ⟨{ heap := fun x => if x = p then q.heap t else q.heap x,
           head := q.head,
           tail := if q.tail = some t then some p else q.tail }, true⟩ := by
      rw [terminate, if_neg hne]
      simp only [hqh, hfp]
    have hassoc : l₁' ++ p :: t :: l₂ = (l₁' ++ [p]) ++ t :: l₂ := by simp
    have hnd3 : ((l₁' ++ [p]) ++ t :: l₂).Nodup := hassoc ▸ h4
    have hnotmem : t ∉ l₁' ++ [p] :=
      fun hm => (List.nodup_append.mp hnd3).2.2 hm (List.mem_cons_self t l₂)
    have herase : (l₁' ++ p :: t :: l₂).erase t = l₁' ++ p :: l₂ := by
      rw [hassoc, List.erase_append_right _ hnotmem, List.erase_cons_head]
      simp
    rw [hterm, herase]
    refine ⟨rfl, ?_, ?_, ?_, ?_⟩
    · show q.head = (l₁' ++ p :: l₂).head?
      rw [hqh, ← hhd]
      cases l₁' <;> simp
    · show (if q.tail = some t then some p else q.tail) = (l₁' ++ p :: l₂).getLast?
      cases l₂ with
      | nil =>
        have htail : q.tail = some t := by
          rw [h2, List.getLast?_append_cons, List.getLast?_cons_cons]
          rfl
        rw [if_pos htail, List.getLast?_append_cons]
        rfl
      | cons c l₂' =>
        have hglc : (l₁' ++ p :: t :: c :: l₂').getLast? = (c :: l₂').getLast? := by
          rw [List.getLast?_append_cons, List.getLast?_cons_cons,
            List.getLast?_cons_cons]
        have hsome : ((c :: l₂').getLast?).isSome := List.getLast?_isSome.mpr (by simp)
        obtain ⟨ls, hls⟩ := Option.isSome_iff_exists.mp hsome
        have hlsmem : ls ∈ c :: l₂' := List.mem_of_getLast?_eq_some hls
        have htne : q.tail ≠ some t := by
          rw [h2, hglc, hls]
          intro he
          have hlt : ls = t := Option.some_inj.mp he
          have htnd : (t :: c :: l₂').Nodup := (List.nodup_append.mp hnd3).2.1
          exact (List.nodup_cons.mp htnd).1 (hlt ▸ hlsmem)
        rw [if_neg htne, h2, hglc, List.getLast?_append_cons,
          List.getLast?_cons_cons]
    · exact linked_unlink q.heap t l₁' p l₂ h3 h4
    · have := List.Nodup.erase t h4
      rw [herase] at this
      exact this

/-- C1 witness: on the queue holding threads 1, 2, 3 in order, terminate(2)
destroys thread 2 and leaves the represented queue [1, 3]. -/
theorem C1_terminate_amended_witness :
    reprQ (enqueue (enqueue (enqueue emptySQ 1) 2) 3) [1, 2, 3] ∧
    (2 ∈ [1, 2, 3] ∧ ([1, 2, 3].head? = some 2 → [1, 2, 3] = [2])) ∧
    (terminate [1, 2, 3].length (enqueue (enqueue (enqueue emptySQ 1) 2) 3) 2).destroyed
        = true ∧
    reprQ (terminate [1, 2, 3].length (enqueue (enqueue (enqueue emptySQ 1) 2) 3) 2).q
      ([1, 2, 3].erase 2) := by
  have hrepr : reprQ (enqueue (enqueue (enqueue emptySQ 1) 2) 3) [1, 2, 3] :=
    ⟨rfl, rfl, ⟨rfl, rfl, rfl, trivial⟩, by decide⟩
  have h := C1_terminate_amended (enqueue (enqueue (enqueue emptySQ 1) 2) 3) [1, 2, 3] 2
    hrepr (by decide) (by decide)
  exact ⟨hrepr, ⟨by decide, by decide⟩, h.1, h.2⟩

/-- C2 counterexample: the ready queue is not strict FIFO for every
enqueue/dequeue sequence that re-enqueues a previously dequeued thread.
Neither enqueue nor dequeue clears a thread's next pointer, so after
enq 1, enq 2, deq, deq, enq 1 the re-enqueued thread 1 still has its stale
next pointer to thread 2; the following dequeue of 1 re-installs 2 as head,
and the final dequeue — on a queue that contains nothing — returns thread 2
instead of NULL, diverging from the FIFO model at the fourth dequeue. -/
theorem C2_counterexample :
    concRun emptySQ [.enq 1, .enq 2, .deq, .deq, .enq 1, .deq, .deq] =
      [some 1, some 2, some 1, some 2] ∧
    fifoRun [] [.enq 1, .enq 2, .deq, .deq, .enq 1, .deq, .deq] =
      [some 1, some 2, some 1, none] ∧
    concRun emptySQ [.enq 1, .enq 2, .deq, .deq, .enq 1, .deq, .deq] ≠
      fifoRun [] [.enq 1, .enq 2, .deq, .deq, .enq 1, .deq, .deq] := by decide

/-- C2 amended: for every sequence of enqueue and dequeue operations from
the empty queue in which every enqueued thread is not currently queued and
has a null next pointer at that moment (true of newly constructed threads,
and of re-enqueued threads whose stale next link happens to be null), the
linked queue behaves exactly as the strict-FIFO model: each dequeue returns
the earliest-enqueued thread still in the queue, and dequeue on the empty
queue returns NULL. -/
theorem C2_fifo_amended (ops : List Op) (hclean : cleanRun emptySQ [] ops = true) :
    concRun emptySQ ops = fifoRun [] ops :=
  concRun_fifo ops emptySQ [] ⟨rfl, rfl, trivial, List.nodup_nil⟩ hclean

/-- C2 witness: a clean sequence that includes a genuine re-enqueue of a
dequeued thread (whose next pointer is still null) refines the FIFO model. -/
theorem C2_fifo_amended_witness :
    cleanRun emptySQ [] [.enq 1, .deq, .enq 1, .deq, .deq] = true ∧
    concRun emptySQ [.enq 1, .deq, .enq 1, .deq, .deq] =
      fifoRun [] [.enq 1, .deq, .enq 1, .deq, .deq] :=
  ⟨by decide, C2_fifo_amended [.enq 1, .deq, .enq 1, .deq, .deq] (by decide)⟩

/-- C10: a request for zero frames is not rejected. On any pool with at
least one frame whose frame at pool-relative index 0 is not Free,
get_frames(0) breaks out of the scan with start = 1, marks no frame Used,
sets frame index 1 to HeadOfSequence, leaves nFreeFrames unchanged, and
returns base_frame_no + 1 (in the pool's wrapping unsigned arithmetic). -/
theorem C10_get_frames_zero (c : CFP) (h1 : 1 ≤ c.nframes)
    (h0 : get_state c 0 ≠ .Free) :
    get_frames c 0 = (uadd c.base 1, set_state c 1 .HoS) ∧
    (get_frames c 0).2.nFree = c.nFree := by
  obtain ⟨m, hm⟩ : ∃ m, c.nframes = m + 1 := ⟨c.nframes - 1, by omega⟩
  have hguard : ¬((0 : Nat) > c.nFree) := by omega
  have hscan : scanAux c 0 c.nframes 0 0 0 = (1, 0) := by
    rw [hm, scanAux]
    simp [h0]
  have hmain : get_frames c 0 = (uadd 1 c.base, set_state c 1 .HoS) := by
    rw [get_frames, if_neg hguard, hscan]
    simp only [ne_eq, not_true_eq_false, if_false, setRange]
    rfl
  constructor
  · rw [hmain]
    have : uadd 1 c.base = uadd c.base 1 := by
      simp only [uadd, Nat.add_comm]
    rw [this]
  · rw [hmain, nFree_set_state]

/-- C10 witness: the pool with base 5, 3 frames, nFreeFrames 3 and bitmap
bytes 1 (every frame Used) has frame 0 non-free; get_frames(0) returns
6 = base + 1, marks frame 1 HoS and keeps nFreeFrames at 3. -/
theorem C10_get_frames_zero_witness :
    1 ≤ (⟨5, 3, 3, fun _ => 1⟩ : CFP).nframes ∧
    get_state (⟨5, 3, 3, fun _ => 1⟩ : CFP) 0 ≠ .Free ∧
    (get_frames (⟨5, 3, 3, fun _ => 1⟩ : CFP) 0 =
      (uadd (⟨5, 3, 3, fun _ => 1⟩ : CFP).base 1,
        set_state (⟨5, 3, 3, fun _ => 1⟩ : CFP) 1 .HoS) ∧
      (get_frames (⟨5, 3, 3, fun _ => 1⟩ : CFP) 0).2.nFree =
        (⟨5, 3, 3, fun _ => 1⟩ : CFP).nFree) :=
  ⟨by decide, by decide, C10_get_frames_zero _ (by decide) (by decide)⟩

end MultiProcess
